import Mathlib

/-!
Verification development for the siri-google calendar server (src/server.js).

JavaScript strings are modelled as lists of UTF-16 code units (List Nat);
all string operations of the source (toLowerCase, replace with a string
pattern, trim, includes, and the global regex replace of
word-boundary-delimited cancel/delete/remove) are translated on that
representation. Instants (JS Date values) are modelled as integer
milliseconds since the epoch. The fixed display timezone Asia/Dubai is a
constant UTC offset of +4 hours (the zone has no daylight saving), so the
local-time field computations of Date.setHours are affine in the instant.
-/

set_option autoImplicit false

namespace SiriGoogle

/-- JavaScript string: a list of UTF-16 code units. -/
abbrev Str := List Nat

/-- Code units of a Lean string literal, for concrete test inputs. -/
def strCodes (s : String) : Str := s.toList.map Char.toNat

/-- ASCII lowercasing of one code unit, as done by toLowerCase on the
inputs in question (all relevant text is ASCII). -/
def charLower (c : Nat) : Nat := if 65 ≤ c && c ≤ 90 then c + 32 else c

/-- Model of String.prototype.toLowerCase. -/
def lowerN (s : Str) : Str := s.map charLower

/-- Word character in the sense of the regex metacharacter \b, namely
[A-Za-z0-9_]. -/
def isWordChar (c : Nat) : Bool :=
  (65 ≤ c && c ≤ 90) || (97 ≤ c && c ≤ 122) || (48 ≤ c && c ≤ 57) || c == 95

/-- Whitespace as stripped by String.prototype.trim (the code points that
occur in the inputs in question: space, tab, LF, CR). -/
def isWS (c : Nat) : Bool := c == 32 || c == 9 || c == 10 || c == 13

/-- Model of s.replace(pat, "") for a string pattern pat: remove the first
occurrence of pat, and return s unchanged when pat does not occur. -/
def replaceFirst : Str → Str → Str
  | [], _ => []
  | c :: rest, pat =>
    if pat.isPrefixOf (c :: rest) then (c :: rest).drop pat.length
    else c :: replaceFirst rest pat

/-- Model of hay.includes(needle): substring containment. -/
def isSubstrOf : Str → Str → Bool
  | pat, [] => pat.isPrefixOf []
  | pat, c :: rest => pat.isPrefixOf (c :: rest) || isSubstrOf pat rest

/-- Leading-whitespace removal, one half of String.prototype.trim. -/
def trimL (s : Str) : Str := s.dropWhile isWS

/-- Trailing-whitespace removal, the other half of String.prototype.trim. -/
def trimR (s : Str) : Str := (s.reverse.dropWhile isWS).reverse

/-- Model of String.prototype.trim. -/
def trim (s : Str) : Str := trimR (trimL s)

/-- The three action verbs stripped by the regex in extractSearchTitle. -/
def isVerbWord (s : Str) : Bool :=
  s == strCodes ("cancel") || s == strCodes ("delete") || s == strCodes ("remove")

/-- Whether the regex \b(cancel|delete|remove)\b (case-insensitive) matches
at the start of s, where pw records whether the character immediately
before s in the scanned string is a word character. All three verbs have
length six. -/
def verbHere (pw : Bool) (s : Str) : Bool :=
  !pw && isVerbWord (lowerN (s.take 6)) &&
    (decide (s.length ≤ 6) || !isWordChar (s.getD 6 32))

/-- Scanner for the global replace of \b(cancel|delete|remove)\b with the
empty string. The Nat argument counts remaining characters of a matched
verb still to be skipped; pw records whether the previously scanned
character is a word character (false at the start of the string, and true
while inside a matched verb, whose characters are all letters). -/
def stripAux : Nat → Bool → Str → Str
  | _, _, [] => []
  | Nat.succ k, _, _ :: rest => stripAux k true rest
  | 0, pw, c :: rest =>
    if verbHere pw (c :: rest) then stripAux 5 true rest
    else c :: stripAux 0 (isWordChar c) rest

/-- Model of s.replace(regex with cancel, delete, remove alternatives, ""). -/
def stripVerbs (s : Str) : Str := stripAux 0 false s

/-- One chrono.parse result: text models result.text (the matched span of
the utterance, in its original casing), startInstant models
result.start.date() as epoch milliseconds, endInstant models
result.end and its date() when present. -/
structure ParsedResult where
  text : Str
  startInstant : Int
  endInstant : Option Int
deriving DecidableEq

/-- An existing calendar event as listed by the backend: id and summary
are the fields the resolution core reads. -/
structure CalendarEvent where
  id : Str
  summary : Str
deriving DecidableEq

/-- The event payload built for the insert call: summary plus start and
end dateTime instants, each tagged with the fixed timezone label. -/
structure GCalEvent where
  summary : Str
  startDateTime : Int
  startTimeZone : Str
  endDateTime : Int
  endTimeZone : Str
deriving DecidableEq

/-- Fixed display timezone label used by the source. -/
def dubaiTZ : Str := strCodes ("Asia/Dubai")

/-- Milliseconds per day. -/
def msPerDay : Int := 86400000

/-- UTC offset of the fixed display timezone Asia/Dubai (+4 hours), in
milliseconds; the zone has no daylight saving time. -/
def tzOffsetMs : Int := 14400000

/-- Model of date.setHours(0, 0, 0, 0): the instant of local midnight of
the local calendar day containing t. -/
def setHours0 (t : Int) : Int := t - (t + tzOffsetMs) % msPerDay

/-- Model of date.setHours(23, 59, 59, 999): the last millisecond of the
local calendar day containing t. -/
def setHours2359 (t : Int) : Int := setHours0 t + 86399999

/-- Local wall-clock millisecond of day of an instant. -/
def localTimeOfDay (t : Int) : Int := (t + tzOffsetMs) % msPerDay

/-- Index of the local calendar day containing an instant. -/
def localDay (t : Int) : Int := (t + tzOffsetMs) / msPerDay

/-- Result object of getDateRange. -/
structure DateRange where
  timeMin : Int
  timeMax : Int
deriving DecidableEq

/-- Model of getDateRange (src/server.js lines 40 to 46): the first
setHours call mutates the copied date to local midnight, the second is
applied to that already-mutated date. -/
def getDateRange (date : Int) : DateRange :=
  let targetDate := setHours0 date
  { timeMin := targetDate, timeMax := setHours2359 targetDate }

/-- Model of extractEventTitle (src/server.js lines 105 to 111): for each
parse result in order, remove the first occurrence of its matched text
from the progressively shrinking title and trim. -/
def extractEventTitle (eventText : Str) (parsedDate : List ParsedResult) : Str :=
  parsedDate.foldl (fun eventTitle date => trim (replaceFirst eventTitle date.text)) eventText

/-- Model of createEventObject (src/server.js lines 119 to 133): end
defaults to start plus one hour when the parse result has no end. -/
def createEventObject (title : Str) (parsedDate : ParsedResult) : GCalEvent :=
  { summary := title
    startDateTime := parsedDate.startInstant
    startTimeZone := dubaiTZ
    endDateTime :=
      match parsedDate.endInstant with
      | some e => e
      | none => parsedDate.startInstant + 60 * 60 * 1000
    endTimeZone := dubaiTZ }

/-- Model of extractSearchTitle (src/server.js lines 141 to 153): lowercase
the whole text, then for each parse result remove the first occurrence of
its matched text, in its original casing, from the lowercased string and
trim, and finally strip the whole-word action verbs and trim. -/
def extractSearchTitle (eventText : Str) (parsedDate : List ParsedResult) : Str :=
  let searchTitle := lowerN eventText
  let searchTitle :=
    if parsedDate.isEmpty then searchTitle
    else parsedDate.foldl (fun st date => trim (replaceFirst st date.text)) searchTitle
  trim (stripVerbs searchTitle)

/-- Predicate of the find callback in findMatchingEvent: bidirectional
substring containment between the lowercased summary and the search
title. -/
def matchesTitle (searchTitle : Str) (event : CalendarEvent) : Bool :=
  isSubstrOf searchTitle (lowerN event.summary) || isSubstrOf (lowerN event.summary) searchTitle

/-- Model of findMatchingEvent (src/server.js lines 161 to 166):
Array.prototype.find, returning the first element satisfying the
predicate, or null (none) when no element does. -/
def findMatchingEvent (events : List CalendarEvent) (searchTitle : Str) : Option CalendarEvent :=
  events.find? (matchesTitle searchTitle)

/-- Spoken responses of the three routes, one constructor per distinct
response shape of the source. -/
inductive SiriResponse where
  | provideEventDetails
  | cantUnderstandDateTime
  | addedEvent (title : Str) (event : GCalEvent)
  | specifyDay
  | cantUnderstandDate
  | eventList (events : List CalendarEvent) (targetDate : Int)
  | specifyCancel
  | noMatch (searchTitle : Str) (targetDate : Int)
  | cancelled (event : CalendarEvent)
deriving DecidableEq

/-- Observable outcome of one create request: the insert payload sent to
the backend (none when no backend call is made) and the spoken response. -/
structure CreateAction where
  insertCall : Option GCalEvent
  response : SiriResponse
deriving DecidableEq

/-- Observable outcome of one query request. -/
structure QueryAction where
  listCall : Option DateRange
  response : SiriResponse
deriving DecidableEq

/-- Observable outcome of one delete request: the list call, the delete
call (the id passed to events.delete, none when no deletion is issued) and
the spoken response. -/
structure DeleteAction where
  listCall : Option DateRange
  deleteCall : Option Str
  response : SiriResponse
deriving DecidableEq

/-- Model of the create route (src/server.js lines 237 to 273) up to the
insert call: eventText is none when the field is absent, and the empty
string is falsy in the guard; parsed is the chrono.parse result. -/
def createHandler (eventText : Option Str) (parsed : List ParsedResult) : CreateAction :=
  match eventText with
  | none => ⟨none, .provideEventDetails⟩
  | some txt =>
    if txt.isEmpty then ⟨none, .provideEventDetails⟩
    else
      match parsed with
      | [] => ⟨none, .cantUnderstandDateTime⟩
      | p :: rest =>
        let eventTitle := extractEventTitle txt (p :: rest)
        let event := createEventObject eventTitle p
        ⟨some event, .addedEvent eventTitle event⟩

/-- Model of the query route (src/server.js lines 276 to 313): events is
the backend listEvents result for the computed range. -/
def queryHandler (dateText : Option Str) (parsed : List ParsedResult)
    (events : List CalendarEvent) : QueryAction :=
  match dateText with
  | none => ⟨none, .specifyDay⟩
  | some txt =>
    if txt.isEmpty then ⟨none, .specifyDay⟩
    else
      match parsed with
      | [] => ⟨none, .cantUnderstandDate⟩
      | p :: _ =>
        let targetDate := p.startInstant
        ⟨some (getDateRange targetDate), .eventList events targetDate⟩

/-- Model of the delete route (src/server.js lines 316 to 370): when the
parse result is empty the target date defaults to the current instant now;
events is the backend listEvents result for the computed range. -/
def deleteHandler (eventText : Option Str) (parsed : List ParsedResult)
    (now : Int) (events : List CalendarEvent) : DeleteAction :=
  match eventText with
  | none => ⟨none, none, .specifyCancel⟩
  | some txt =>
    if txt.isEmpty then ⟨none, none, .specifyCancel⟩
    else
      let targetDate := match parsed with | [] => now | p :: _ => p.startInstant
      let searchTitle := extractSearchTitle txt parsed
      match findMatchingEvent events searchTitle with
      | none => ⟨some (getDateRange targetDate), none, .noMatch searchTitle targetDate⟩
      | some matchingEvent =>
        ⟨some (getDateRange targetDate), some matchingEvent.id, .cancelled matchingEvent⟩

/-- No match of the verb regex anywhere in s, when the character before s
is a word character iff pw: this is the invariant characterizing strings
on which stripVerbs is the identity. -/
def NoVerb : Bool → Str → Prop
  | _, [] => True
  | pw, c :: rest => verbHere pw (c :: rest) = false ∧ NoVerb (isWordChar c) rest

/-- Helper event record for concrete instantiations: the Team Sync event
of Scenario C of the specification. -/
def teamSyncEvent : CalendarEvent := ⟨strCodes ("1"), strCodes ("Team Sync")⟩

/-- Helper event record for concrete instantiations: the Doctor event of
Scenario C of the specification. -/
def doctorEvent : CalendarEvent := ⟨strCodes ("2"), strCodes ("Doctor")⟩

theorem isPrefixOf_iff : ∀ (p s : Str), p.isPrefixOf s = true ↔ ∃ t, s = p ++ t
  | [], s => by simp [List.isPrefixOf]
  | a :: p, [] => by simp [List.isPrefixOf]
  | a :: p, b :: s => by
    simp only [List.isPrefixOf, Bool.and_eq_true, beq_iff_eq, List.cons_append, List.cons.injEq]
    constructor
    · rintro ⟨rfl, h⟩
      obtain ⟨t, rfl⟩ := (isPrefixOf_iff p s).mp h
      exact ⟨t, rfl, rfl⟩
    · rintro ⟨t, rfl, rfl⟩
      exact ⟨rfl, (isPrefixOf_iff p (p ++ t)).mpr ⟨t, rfl⟩⟩

theorem isSubstrOf_iff : ∀ (p s : Str), isSubstrOf p s = true ↔ ∃ a b, s = a ++ (p ++ b)
  | p, [] => by
    cases p with
    | nil => exact ⟨fun _ => ⟨[], [], rfl⟩, fun _ => rfl⟩
    | cons c q =>
      simp only [isSubstrOf, List.isPrefixOf]
      constructor
      · intro h
        exact absurd h (by simp)
      · rintro ⟨a, b, h⟩
        cases a <;> simp_all
  | p, c :: rest => by
    simp only [isSubstrOf, Bool.or_eq_true]
    rw [isPrefixOf_iff, isSubstrOf_iff p rest]
    constructor
    · rintro (⟨t, ht⟩ | ⟨a, b, rfl⟩)
      · exact ⟨[], t, by simpa using ht⟩
      · exact ⟨c :: a, b, rfl⟩
    · rintro ⟨a, b, h⟩
      cases a with
      | nil => exact Or.inl ⟨b, by simpa using h⟩
      | cons x a' =>
        rw [List.cons_append] at h
        injection h with h1 h2
        exact Or.inr ⟨a', b, h2⟩

theorem replaceFirst_eq_self : ∀ (s pat : Str), isSubstrOf pat s = false → replaceFirst s pat = s
  | [], pat, _ => rfl
  | c :: rest, pat, h => by
    simp only [isSubstrOf, Bool.or_eq_false_iff] at h
    simp only [replaceFirst, h.1, if_neg Bool.false_ne_true]
    exact congrArg (c :: ·) (replaceFirst_eq_self rest pat h.2)

theorem mem_replaceFirst : ∀ (s pat : Str) (x : Nat), x ∈ replaceFirst s pat → x ∈ s
  | [], _, _, h => h
  | c :: rest, pat, x, h => by
    simp only [replaceFirst] at h
    split at h
    · exact List.mem_of_mem_drop h
    · rcases List.mem_cons.mp h with rfl | h'
      · exact List.mem_cons_self x rest
      · exact List.mem_cons_of_mem c (mem_replaceFirst rest pat x h')

theorem stripAux_nil (k : Nat) (pw : Bool) : stripAux k pw [] = [] := by
  cases k <;> rfl

theorem mem_stripAux : ∀ (s : Str) (k : Nat) (pw : Bool) (x : Nat), x ∈ stripAux k pw s → x ∈ s
  | [], k, pw, x, h => by rw [stripAux_nil] at h; exact h
  | c :: rest, Nat.succ k, pw, x, h =>
    List.mem_cons_of_mem c (mem_stripAux rest k true x h)
  | c :: rest, 0, pw, x, h => by
    simp only [stripAux] at h
    split at h
    · exact List.mem_cons_of_mem c (mem_stripAux rest 5 true x h)
    · rcases List.mem_cons.mp h with rfl | h'
      · exact List.mem_cons_self x rest
      · exact List.mem_cons_of_mem c (mem_stripAux rest 0 (isWordChar c) x h')

theorem mem_trimL (s : Str) (x : Nat) (h : x ∈ trimL s) : x ∈ s :=
  (List.dropWhile_sublist isWS).mem h

theorem mem_trimR (s : Str) (x : Nat) (h : x ∈ trimR s) : x ∈ s := by
  rw [trimR, List.mem_reverse] at h
  exact List.mem_reverse.mp ((List.dropWhile_sublist isWS).mem h)

theorem mem_trim (s : Str) (x : Nat) (h : x ∈ trim s) : x ∈ s :=
  mem_trimL s x (mem_trimR (trimL s) x h)

theorem dropWhile_idem (p : Nat → Bool) :
    ∀ l : Str, List.dropWhile p (List.dropWhile p l) = List.dropWhile p l
  | [] => rfl
  | c :: rest => by
    by_cases h : p c = true
    · rw [List.dropWhile_cons, if_pos h]
      exact dropWhile_idem p rest
    · rw [List.dropWhile_cons, if_neg h, List.dropWhile_cons, if_neg h]

theorem trimR_trimR (s : Str) : trimR (trimR s) = trimR s := by
  simp only [trimR, List.reverse_reverse]
  rw [dropWhile_idem]

theorem trimL_trimR (t : Str) (h : trimL t = t) : trimL (trimR t) = trimR t := by
  cases t with
  | nil => rfl
  | cons c rest =>
    have hc : isWS c = false := by
      by_contra hc
      rw [trimL, List.dropWhile_cons, if_pos (Bool.of_not_eq_false hc ▸ rfl)] at h
      have := (List.dropWhile_sublist (l := rest) isWS).length_le
      rw [h] at this
      simp at this
    rw [trimR, List.reverse_cons, List.dropWhile_append]
    split
    · simp [trimL, List.dropWhile_cons, hc]
    · simp [trimL, List.dropWhile_cons, hc, List.reverse_append]

theorem trim_trim (s : Str) : trim (trim s) = trim s := by
  rw [trim, trim, trimL_trimR (trimL s) (dropWhile_idem isWS s), trimR_trimR]

theorem trimL_decomp (s : Str) : ∃ w, s = w ++ trimL s ∧ ∀ x ∈ w, isWS x = true :=
  ⟨s.takeWhile isWS, (List.takeWhile_append_dropWhile isWS s).symm,
    fun _ hx => List.mem_takeWhile_imp hx⟩

theorem trimR_decomp (s : Str) : ∃ w, s = trimR s ++ w ∧ ∀ x ∈ w, isWS x = true := by
  refine ⟨(s.reverse.takeWhile isWS).reverse, ?_, ?_⟩
  · conv_lhs => rw [← s.reverse_reverse, ← List.takeWhile_append_dropWhile isWS s.reverse]
    rw [List.reverse_append, trimR]
  · intro x hx
    exact List.mem_takeWhile_imp (List.mem_reverse.mp hx)

theorem isSubstrOf_trim (p s : Str) (h : isSubstrOf p (trim s) = true) : isSubstrOf p s = true := by
  obtain ⟨a, b, hd⟩ := (isSubstrOf_iff p (trim s)).mp h
  obtain ⟨w2, hw2, _⟩ := trimR_decomp (trimL s)
  obtain ⟨w1, hw1, _⟩ := trimL_decomp s
  refine (isSubstrOf_iff p s).mpr ⟨w1 ++ a, b ++ w2, ?_⟩
  rw [hw1, hw2, trim] at *
  rw [hd]
  simp

/-- C4. For every date d, getDateRange d yields timeMin at local
00:00:00.000 and timeMax at local 23:59:59.999 of the same calendar day in
the fixed display timezone, exactly 86399999 ms apart. -/
theorem getDateRange_day_bounds (d : Int) :
    localTimeOfDay (getDateRange d).timeMin = 0 ∧
    localTimeOfDay (getDateRange d).timeMax = 86399999 ∧
    localDay (getDateRange d).timeMin = localDay (getDateRange d).timeMax ∧
    (getDateRange d).timeMax - (getDateRange d).timeMin = 86399999 := by
  simp only [getDateRange, localTimeOfDay, localDay, setHours2359, setHours0, msPerDay, tzOffsetMs]
  omega

/-- C5. For every title and parse result, createEventObject gives the
draft an end exactly one hour (3600000 ms) after its start when the parse
result has no end instant, and the end instant itself when it has one. -/
theorem createEventObject_end_default (title : Str) (pd : ParsedResult) :
    (pd.endInstant = none →
      (createEventObject title pd).endDateTime - (createEventObject title pd).startDateTime
        = 3600000) ∧
    (∀ e : Int, pd.endInstant = some e → (createEventObject title pd).endDateTime = e) := by
  constructor
  · intro h
    simp [createEventObject, h]
  · intro e h
    simp [createEventObject, h]

theorem createEventObject_end_default_witness :
    (createEventObject [] ⟨[], 0, none⟩).endDateTime
        - (createEventObject [] ⟨[], 0, none⟩).startDateTime = 3600000 ∧
    (createEventObject [] ⟨[], 5, some 99⟩).endDateTime = 99 :=
  ⟨(createEventObject_end_default [] ⟨[], 0, none⟩).1 rfl,
   (createEventObject_end_default [] ⟨[], 5, some 99⟩).2 99 rfl⟩

/-- C9. findMatchingEvent with the empty search title returns the first
event of any non-empty candidate list, and findMatchingEvent on the empty
candidate list returns none for every search title. -/
theorem findMatchingEvent_boundary :
    (∀ (e : CalendarEvent) (rest : List CalendarEvent),
      findMatchingEvent (e :: rest) [] = some e) ∧
    (∀ searchTitle : Str, findMatchingEvent [] searchTitle = none) := by
  constructor
  · intro e rest
    have hm : matchesTitle [] e = true := by
      simp only [matchesTitle, Bool.or_eq_true]
      left
      cases lowerN e.summary <;> simp [isSubstrOf, List.isPrefixOf]
    simp [findMatchingEvent, List.find?_cons, hm]
  · intro searchTitle
    rfl

/-- C1. findMatchingEvent iterates the candidates in order and returns the
first record whose lowercased title contains the search title or whose
lowercased title is contained in the search title, and none when no
candidate satisfies either direction. -/
theorem findMatchingEvent_first_match (events : List CalendarEvent) (searchTitle : Str) :
    (findMatchingEvent events searchTitle = none ↔
      ∀ e ∈ events, matchesTitle searchTitle e = false) ∧
    (∀ e : CalendarEvent, findMatchingEvent events searchTitle = some e ↔
      matchesTitle searchTitle e = true ∧
      ∃ l1 l2, events = l1 ++ e :: l2 ∧ ∀ x ∈ l1, matchesTitle searchTitle x = false) := by
  constructor
  · rw [findMatchingEvent, List.find?_eq_none]
    constructor
    · intro h e he
      exact Bool.not_eq_true _ ▸ h e he
    · intro h e he
      rw [h e he]
      exact Bool.false_ne_true
  · intro e
    induction events with
    | nil =>
      constructor
      · intro h
        exact absurd h (by simp [findMatchingEvent])
      · rintro ⟨_, l1, l2, hev, _⟩
        cases l1 <;> simp at hev
    | cons a rest ih =>
      by_cases ha : matchesTitle searchTitle a = true
      · rw [findMatchingEvent, List.find?_cons, ha]
        constructor
        · intro h
          injection h with h
          subst h
          exact ⟨ha, [], rest, rfl, by simp⟩
        · rintro ⟨he, l1, l2, hev, hl1⟩
          cases l1 with
          | nil =>
            injection hev with h1 _
            rw [h1]
          | cons y l1' =>
            injection hev with h1 _
            subst h1
            exact absurd ha (by rw [hl1 a (List.mem_cons_self a l1')]; exact Bool.false_ne_true)
      · have hfa : matchesTitle searchTitle a = false := Bool.not_eq_true _ ▸ ha
        rw [findMatchingEvent, List.find?_cons, hfa]
        rw [findMatchingEvent] at ih
        rw [ih]
        constructor
        · rintro ⟨he, l1, l2, hev, hl1⟩
          subst hev
          refine ⟨he, a :: l1, l2, rfl, ?_⟩
          intro x hx
          rcases List.mem_cons.mp hx with rfl | hx'
          · exact hfa
          · exact hl1 x hx'
        · rintro ⟨he, l1, l2, hev, hl1⟩
          cases l1 with
          | nil =>
            injection hev with h1 _
            subst h1
            exact absurd he (by rw [hfa]; exact Bool.false_ne_true)
          | cons y l1' =>
            injection hev with h1 h2
            subst h1
            exact ⟨he, l1', l2, h2, fun x hx => hl1 x (List.mem_cons_of_mem a hx)⟩

theorem findMatchingEvent_first_match_witness :
    matchesTitle (strCodes ("sync")) teamSyncEvent = true ∧
    ∃ l1 l2, [teamSyncEvent, doctorEvent] = l1 ++ teamSyncEvent :: l2 ∧
      ∀ x ∈ l1, matchesTitle (strCodes ("sync")) x = false :=
  ((findMatchingEvent_first_match [teamSyncEvent, doctorEvent] (strCodes ("sync"))).2
    teamSyncEvent).mp (by decide)

/-- C2. Code bug demonstration: extractSearchTitle removes the matched
text in its original casing from the already-lowercased string, so the
removal silently fails when the casing differs; with utterance containing
the single span Tomorrow, the result still contains the lowercased matched
text tomorrow, contrary to the specified behavior of lowercasing the span
before removal. -/
theorem extractSearchTitle_casing_bug :
    extractSearchTitle (strCodes ("cancel Dentist Tomorrow")) [⟨strCodes ("Tomorrow"), 0, none⟩]
        = strCodes ("dentist tomorrow") ∧
    isSubstrOf (lowerN (strCodes ("Tomorrow")))
      (extractSearchTitle (strCodes ("cancel Dentist Tomorrow"))
        [⟨strCodes ("Tomorrow"), 0, none⟩]) = true := by
  exact ⟨by decide, by decide⟩

/-- C3 counterexample: a delete request whose text yields an empty parse
does not return the could-not-understand message and still issues a
backend listEvents call, refuting the claim for the delete endpoint. -/
theorem delete_empty_parse_counterexample :
    (deleteHandler (some (strCodes ("cancel my dentist appointment"))) [] 0 []).listCall
        = some (getDateRange 0) ∧
    (deleteHandler (some (strCodes ("cancel my dentist appointment"))) [] 0 []).response
        ≠ SiriResponse.cantUnderstandDate ∧
    (deleteHandler (some (strCodes ("cancel my dentist appointment"))) [] 0 []).response
        ≠ SiriResponse.cantUnderstandDateTime := by
  exact ⟨by decide, by decide, by decide⟩

/-- C3 amended: for create and query requests whose non-empty text yields
an empty parse, the endpoint returns its fixed could-not-understand
message and makes no backend call; the delete endpoint instead defaults
the target date to the current instant and proceeds with the backend
lookup. -/
theorem empty_parse_behavior (txt : Str) (h : txt ≠ []) (now : Int)
    (events : List CalendarEvent) :
    createHandler (some txt) [] = ⟨none, SiriResponse.cantUnderstandDateTime⟩ ∧
    queryHandler (some txt) [] events = ⟨none, SiriResponse.cantUnderstandDate⟩ ∧
    (deleteHandler (some txt) [] now events).listCall = some (getDateRange now) := by
  have hne : txt.isEmpty = false := by
    cases txt
    · exact absurd rfl h
    · rfl
  refine ⟨?_, ?_, ?_⟩
  · simp [createHandler, hne]
  · simp [queryHandler, hne]
  · simp only [deleteHandler, hne, Bool.false_eq_true, if_false]
    cases findMatchingEvent events (extractSearchTitle txt []) <;> rfl

theorem empty_parse_behavior_witness :
    createHandler (some (strCodes ("gibberish"))) []
        = ⟨none, SiriResponse.cantUnderstandDateTime⟩ ∧
    queryHandler (some (strCodes ("gibberish"))) [] []
        = ⟨none, SiriResponse.cantUnderstandDate⟩ ∧
    (deleteHandler (some (strCodes ("gibberish"))) [] 0 []).listCall
        = some (getDateRange 0) :=
  empty_parse_behavior (strCodes ("gibberish")) (by decide) 0 []

/-- C8. For every delete request with non-empty text: when findMatchingEvent
yields a match, exactly one backend delete call is issued, with the id of
that first matching record; when it yields none, no delete call is issued
and the response names the searched title and the target date. -/
theorem deleteHandler_frame (txt : Str) (parsed : List ParsedResult) (now : Int)
    (events : List CalendarEvent) (h : txt ≠ []) :
    (∀ ev : CalendarEvent,
      findMatchingEvent events (extractSearchTitle txt parsed) = some ev →
        (deleteHandler (some txt) parsed now events).deleteCall = some ev.id ∧
        (deleteHandler (some txt) parsed now events).response = SiriResponse.cancelled ev) ∧
    (findMatchingEvent events (extractSearchTitle txt parsed) = none →
      (deleteHandler (some txt) parsed now events).deleteCall = none ∧
      (deleteHandler (some txt) parsed now events).response =
        SiriResponse.noMatch (extractSearchTitle txt parsed)
          (match parsed with | [] => now | p :: _ => p.startInstant)) ∧
    (deleteHandler none parsed now events).deleteCall = none ∧
    (deleteHandler (some []) parsed now events).deleteCall = none := by
  have hne : txt.isEmpty = false := by
    cases txt
    · exact absurd rfl h
    · rfl
  refine ⟨?_, ?_, rfl, rfl⟩
  · intro ev hev
    constructor <;> simp [deleteHandler, hne, hev]
  · intro hnone
    refine ⟨?_, ?_⟩ <;> simp [deleteHandler, hne, hnone]

theorem deleteHandler_frame_witness :
    (deleteHandler (some (strCodes ("cancel team sync"))) [] 0 [teamSyncEvent]).deleteCall
        = some teamSyncEvent.id ∧
    (deleteHandler (some (strCodes ("cancel team sync"))) [] 0 [teamSyncEvent]).response
        = SiriResponse.cancelled teamSyncEvent :=
  (deleteHandler_frame (strCodes ("cancel team sync")) [] 0 [teamSyncEvent]
    (by decide)).1 teamSyncEvent (by decide)

/-- C10. When the create request parses to one or more temporal
expressions, the inserted payload takes its title from the utterance with
every matched text removed by one first-occurrence removal per expression,
in order, trimming after each, while the start and end instants come from
the first expression only. -/
theorem createHandler_multi_expr (txt : Str) (p : ParsedResult) (rest : List ParsedResult)
    (h : txt ≠ []) :
    (createHandler (some txt) (p :: rest)).insertCall =
      some { summary := (p :: rest).foldl (fun acc d => trim (replaceFirst acc d.text)) txt
             startDateTime := p.startInstant
             startTimeZone := dubaiTZ
             endDateTime := p.endInstant.getD (p.startInstant + 3600000)
             endTimeZone := dubaiTZ } := by
  have hne : txt.isEmpty = false := by
    cases txt
    · exact absurd rfl h
    · rfl
  cases hp : p.endInstant <;>
    simp [createHandler, hne, createEventObject, extractEventTitle, hp]

theorem createHandler_multi_expr_witness :
    (createHandler (some (strCodes ("a b c")))
        [⟨strCodes ("b"), 10, none⟩, ⟨strCodes ("c"), 20, some 30⟩]).insertCall =
      some { summary := strCodes ("a")
             startDateTime := 10
             startTimeZone := dubaiTZ
             endDateTime := 3600010
             endTimeZone := dubaiTZ } :=
  (createHandler_multi_expr (strCodes ("a b c")) ⟨strCodes ("b"), 10, none⟩
    [⟨strCodes ("c"), 20, some 30⟩] (by decide)).trans (by decide)

/-- C6 counterexample: with an utterance in which the matched text occurs
twice, the extracted title still contains the matched text, since only the
first occurrence is removed. -/
theorem extractEventTitle_span_survives :
    isSubstrOf (strCodes ("tomorrow"))
      (extractEventTitle (strCodes ("meet tomorrow tomorrow"))
        [⟨strCodes ("tomorrow"), 0, none⟩]) = true := by decide

/-- C6 amended: extractEventTitle of an utterance with a single expression
never contains the matched text, provided deleting the first occurrence of
the matched text from the utterance leaves a string that does not contain
the matched text (the removal happens once, so a second occurrence, or one
reassembled across the deletion point, survives). -/
theorem extractEventTitle_span_removed (u : Str) (e : ParsedResult)
    (h : isSubstrOf e.text (replaceFirst u e.text) = false) :
    isSubstrOf e.text (extractEventTitle u [e]) = false := by
  have hdef : extractEventTitle u [e] = trim (replaceFirst u e.text) := rfl
  rw [hdef]
  by_contra hc
  rw [Bool.not_eq_false] at hc
  have := isSubstrOf_trim _ _ hc
  rw [h] at this
  exact Bool.false_ne_true this

theorem extractEventTitle_span_removed_witness :
    isSubstrOf (strCodes ("tomorrow at noon"))
      (replaceFirst (strCodes ("lunch with Sam tomorrow at noon"))
        (strCodes ("tomorrow at noon"))) = false ∧
    isSubstrOf (strCodes ("tomorrow at noon"))
      (extractEventTitle (strCodes ("lunch with Sam tomorrow at noon"))
        [⟨strCodes ("tomorrow at noon"), 0, none⟩]) = false :=
  ⟨by decide,
   extractEventTitle_span_removed (strCodes ("lunch with Sam tomorrow at noon"))
     ⟨strCodes ("tomorrow at noon"), 0, none⟩ (by decide)⟩

/-- C7 counterexample: extractSearchTitle is not idempotent; when the
matched text occurs twice, each application removes one further first
occurrence. -/
theorem extractSearchTitle_not_idem :
    extractSearchTitle
        (extractSearchTitle (strCodes ("tomorrow tomorrow meeting"))
          [⟨strCodes ("tomorrow"), 0, none⟩])
        [⟨strCodes ("tomorrow"), 0, none⟩] ≠
      extractSearchTitle (strCodes ("tomorrow tomorrow meeting"))
        [⟨strCodes ("tomorrow"), 0, none⟩] := by decide

theorem charLower_idem (c : Nat) : charLower (charLower c) = charLower c := by
  simp only [charLower]
  split_ifs with h1 h2 <;> simp_all
  omega

theorem isWordChar_charLower (c : Nat) (h : isWordChar (charLower c) = true) :
    isWordChar c = true := by
  simp only [charLower] at h
  split_ifs at h with h1 <;> simp_all [isWordChar]

theorem lowerN_eq_self : ∀ (s : Str), (∀ c ∈ s, charLower c = c) → lowerN s = s
  | [], _ => rfl
  | c :: rest, h => by
    rw [lowerN, List.map_cons, h c (List.mem_cons_self c rest)]
    exact congrArg (c :: ·) (lowerN_eq_self rest fun x hx => h x (List.mem_cons_of_mem c hx))

theorem mem_fold_step : ∀ (ps : List ParsedResult) (s0 : Str) (x : Nat),
    x ∈ ps.foldl (fun st date => trim (replaceFirst st date.text)) s0 → x ∈ s0
  | [], _, _, h => h
  | p :: ps, s0, x, h => by
    have h1 := mem_fold_step ps (trim (replaceFirst s0 p.text)) x h
    exact mem_replaceFirst s0 p.text x (mem_trim _ x h1)

theorem extractSearchTitle_lowered (u : Str) (ps : List ParsedResult) :
    ∀ c ∈ extractSearchTitle u ps, charLower c = c := by
  intro c hc
  rw [extractSearchTitle] at hc
  have h1 := mem_trim _ c hc
  have h2 := mem_stripAux _ 0 false c h1
  have h3 : c ∈ lowerN u := by
    split at h2
    · exact h2
    · exact mem_fold_step ps (lowerN u) c h2
  obtain ⟨y, _, rfl⟩ := List.mem_map.mp h3
  exact charLower_idem y

theorem foldl_fixed : ∀ (ps : List ParsedResult) (r : Str),
    (∀ p ∈ ps, isSubstrOf p.text r = false) → trim r = r →
    ps.foldl (fun st date => trim (replaceFirst st date.text)) r = r
  | [], _, _, _ => rfl
  | p :: ps, r, h, htrim => by
    have hstep : trim (replaceFirst r p.text) = r := by
      rw [replaceFirst_eq_self r p.text (h p (List.mem_cons_self p ps)), htrim]
    rw [List.foldl_cons, hstep]
    exact foldl_fixed ps r (fun q hq => h q (List.mem_cons_of_mem p hq)) htrim

theorem stripAux_skip : ∀ (s : Str) (k : Nat) (pw : Bool),
    stripAux (k + 1) pw s = stripAux 0 true (s.drop (k + 1))
  | [], k, pw => by rw [stripAux_nil, List.drop_nil, stripAux_nil]
  | _ :: rest, 0, pw => by rw [List.drop_succ_cons, List.drop_zero]; rfl
  | _ :: rest, k + 1, pw => by
    rw [List.drop_succ_cons]
    exact stripAux_skip rest k true

theorem strip_cons (pw : Bool) (c : Nat) (rest : Str) :
    stripAux 0 pw (c :: rest) =
      if verbHere pw (c :: rest) = true then stripAux 0 true (rest.drop 5)
      else c :: stripAux 0 (isWordChar c) rest := by
  show (if verbHere pw (c :: rest) then stripAux 5 true rest
        else c :: stripAux 0 (isWordChar c) rest) = _
  by_cases h : verbHere pw (c :: rest) = true
  · rw [if_pos h, if_pos h, stripAux_skip rest 4 true]
  · rw [if_neg h, if_neg h]

theorem verbHere_elim (pw : Bool) (s : Str) (h : verbHere pw s = true) :
    pw = false ∧ isVerbWord (lowerN (s.take 6)) = true ∧
      (s.length ≤ 6 ∨ isWordChar (s.getD 6 32) = false) := by
  simp only [verbHere, Bool.and_eq_true, Bool.or_eq_true, Bool.not_eq_true',
    decide_eq_true_eq] at h
  exact ⟨h.1.1, h.1.2, h.2⟩

theorem isVerbWord_length (s : Str) (h : isVerbWord s = true) : s.length = 6 := by
  simp only [isVerbWord, Bool.or_eq_true, beq_iff_eq] at h
  rcases h with (h | h) | h <;> subst h <;> rfl

theorem isVerbWord_wordChars (v : Str) (h : isVerbWord (lowerN v) = true) :
    ∀ x ∈ v, isWordChar x = true := by
  intro x hx
  have hm : charLower x ∈ lowerN v := List.mem_map_of_mem charLower hx
  have hword : isWordChar (charLower x) = true := by
    simp only [isVerbWord, Bool.or_eq_true, beq_iff_eq] at h
    rcases h with (h | h) | h <;> rw [h] at hm
    · exact (show ∀ y ∈ strCodes ("cancel"), isWordChar y = true by decide) _ hm
    · exact (show ∀ y ∈ strCodes ("delete"), isWordChar y = true by decide) _ hm
    · exact (show ∀ y ∈ strCodes ("remove"), isWordChar y = true by decide) _ hm
  exact isWordChar_charLower x hword

theorem verbHere_len (pw : Bool) (s : Str) (h : verbHere pw s = true) : 6 ≤ s.length := by
  have h3 := isVerbWord_length _ (verbHere_elim pw s h).2.1
  rw [lowerN, List.length_map, List.length_take] at h3
  omega

theorem verbHere_head_nonword (pw : Bool) (x : Nat) (t : Str) (hx : isWordChar x = false) :
    verbHere pw (x :: t) = false := by
  by_contra h
  rw [Bool.not_eq_false] at h
  have := isVerbWord_wordChars _ (verbHere_elim _ _ h).2.1 x
    (by rw [List.take_succ_cons]; exact List.mem_cons_self x (t.take 5))
  rw [hx] at this
  exact Bool.false_ne_true this

theorem noVerb_mono : ∀ (s : Str), NoVerb false s → ∀ pw, NoVerb pw s
  | [], _, _ => trivial
  | c :: rest, h, pw => by
    cases pw
    · exact h
    · exact ⟨by simp [verbHere], h.2⟩

theorem stripAux_eq_self : ∀ (s : Str) (pw : Bool), NoVerb pw s → stripAux 0 pw s = s
  | [], _, _ => rfl
  | c :: rest, pw, h => by
    rw [strip_cons, if_neg (by simp [h.1])]
    exact congrArg (c :: ·) (stripAux_eq_self rest (isWordChar c) h.2)

theorem getD_drop : ∀ (l : Str) (n : Nat) (d : Nat), (l.drop n).getD 0 d = l.getD n d
  | _, 0, _ => by rw [List.drop_zero]
  | [], _ + 1, _ => rfl
  | _ :: l, n + 1, d => by
    rw [List.drop_succ_cons, List.getD_cons_succ]
    exact getD_drop l n d

theorem stripAux_decomp : ∀ (s : Str) (pw : Bool),
    stripAux 0 pw s = s ∨
    ∃ a v b : Str, s = a ++ v ++ b ∧ isVerbWord (lowerN v) = true ∧ v.length = 6 ∧
      (b = [] ∨ isWordChar (b.getD 0 32) = false) ∧
      (a = [] → pw = false) ∧
      (∀ x, a.getLast? = some x → isWordChar x = false) ∧
      stripAux 0 pw s = a ++ stripAux 0 true b
  | [], _ => Or.inl rfl
  | c :: rest, pw => by
    by_cases h : verbHere pw (c :: rest) = true
    · right
      obtain ⟨hpw, hverb, hb⟩ := verbHere_elim _ _ h
      have hlen : 6 ≤ (c :: rest).length := verbHere_len _ _ h
      refine ⟨[], (c :: rest).take 6, (c :: rest).drop 6, ?_, ?_, ?_, ?_, ?_, ?_, ?_⟩
      · rw [List.nil_append, List.take_append_drop]
      · exact hverb
      · rw [List.length_take]
        omega
      · rcases hb with hle | hw
        · left
          exact List.drop_eq_nil_of_le hle
        · right
          rw [getD_drop]
          exact hw
      · intro _
        exact hpw
      · intro x hx
        simp at hx
      · rw [strip_cons, if_pos h, List.nil_append, List.drop_succ_cons]
    · have hrec := stripAux_decomp rest (isWordChar c)
      rcases hrec with heq | ⟨a, v, b, hsplit, hverb, hlen, hb, hanil, halast, hout⟩
      · left
        rw [strip_cons, if_neg (by simp [h]), heq]
      · right
        refine ⟨c :: a, v, b, by rw [List.cons_append, List.cons_append, hsplit],
          hverb, hlen, hb, ?_, ?_, ?_⟩
        · intro h'
          exact absurd h' (List.cons_ne_nil c a)
        · intro x hx
          cases a with
          | nil =>
            rw [List.getLast?_singleton] at hx
            injection hx with hx
            rw [← hx]
            exact hanil rfl
          | cons y a' =>
            rw [List.getLast?_cons_cons] at hx
            exact halast x hx
        · rw [strip_cons, if_neg (by simp [h]), hout, List.cons_append]

theorem verbHere_stripped (pw : Bool) (c : Nat) (rest : Str)
    (h : verbHere pw (c :: rest) = false) :
    verbHere pw (c :: stripAux 0 (isWordChar c) rest) = false := by
  rcases stripAux_decomp rest (isWordChar c) with heq |
    ⟨a, v, b, hsplit, hverb, hlen, hb, hanil, halast, hout⟩
  · rw [heq]
    exact h
  · rw [hout]
    by_contra hcon
    rw [Bool.not_eq_false] at hcon
    obtain ⟨hpw, hverb2, hbdry⟩ := verbHere_elim _ _ hcon
    have hw : stripAux 0 true b = [] ∨
        ∃ y w', stripAux 0 true b = y :: w' ∧ isWordChar y = false := by
      cases b with
      | nil => exact Or.inl (stripAux_nil 0 true)
      | cons y b' =>
        have hyw : isWordChar y = false := by
          rcases hb with hnil | hgd
          · exact absurd hnil (List.cons_ne_nil y b')
          · rw [List.getD_cons_zero] at hgd
            exact hgd
        exact Or.inr ⟨y, stripAux 0 (isWordChar y) b',
          by rw [strip_cons, if_neg (by simp [verbHere])], hyw⟩
    rcases Nat.lt_or_ge a.length 5 with ha_lt5 | ha_ge5
    · rcases hw with hwnil | ⟨y, w', hweq, hyw⟩
      · have hlen6 := isVerbWord_length _ hverb2
        rw [lowerN, List.length_map, List.length_take, hwnil, List.append_nil] at hlen6
        simp only [List.length_cons] at hlen6
        omega
      · have hymem : y ∈ (c :: (a ++ stripAux 0 true b)).take 6 := by
          rw [List.take_succ_cons, hweq, List.take_append_eq_append_take]
          refine List.mem_cons_of_mem c (List.mem_append_right _ ?_)
          have h51 : 5 - a.length = (4 - a.length) + 1 := by omega
          rw [h51, List.take_succ_cons]
          exact List.mem_cons_self y _
        have hyword := isVerbWord_wordChars _ hverb2 y hymem
        rw [hyw] at hyword
        exact Bool.false_ne_true hyword
    · rcases Nat.lt_or_ge a.length 6 with ha_lt6 | ha_ge6
      · have ha5 : a.length = 5 := by omega
        have htake : (c :: (a ++ stripAux 0 true b)).take 6 = c :: a := by
          rw [List.take_succ_cons, List.take_append_eq_append_take, ha5,
            List.take_of_length_le (by omega)]
          simp
        rw [htake] at hverb2
        have hane : a ≠ [] := by
          intro h0
          rw [h0] at ha5
          simp at ha5
        obtain ⟨z, hz⟩ : ∃ z, a.getLast? = some z :=
          ⟨a.getLast hane, List.getLast?_eq_getLast a hane⟩
        have hzword := isVerbWord_wordChars _ hverb2 z
          (List.mem_cons_of_mem c (List.mem_of_getLast?_eq_some hz))
        rw [halast z hz] at hzword
        exact Bool.false_ne_true hzword
      · have h50 : 5 - a.length = 0 := by omega
        have htake_eq : (c :: (a ++ stripAux 0 true b)).take 6 = (c :: rest).take 6 := by
          rw [hsplit, List.take_succ_cons, List.take_succ_cons, List.append_assoc,
            List.take_append_eq_append_take, List.take_append_eq_append_take, h50]
          simp
        have hgd_eq : (c :: (a ++ stripAux 0 true b)).getD 6 32
            = (c :: rest).getD 6 32 := by
          rw [hsplit, List.getD_cons_succ, List.getD_cons_succ, List.append_assoc,
            List.getD_append _ _ _ _ (by omega), List.getD_append _ _ _ _ (by omega)]
        have hlen1 : ¬ (c :: (a ++ stripAux 0 true b)).length ≤ 6 := by
          simp only [List.length_cons, List.length_append]
          omega
        have hbd : isWordChar ((c :: rest).getD 6 32) = false := by
          rcases hbdry with hle | hw2
          · exact absurd hle hlen1
          · rw [← hgd_eq]
            exact hw2
        have hcontra : verbHere pw (c :: rest) = true := by
          simp only [verbHere, Bool.and_eq_true, Bool.or_eq_true, Bool.not_eq_true',
            decide_eq_true_eq]
          exact ⟨⟨hpw, by rw [← htake_eq]; exact hverb2⟩, Or.inr hbd⟩
        rw [h] at hcontra
        exact Bool.false_ne_true hcontra

theorem noVerb_stripAux : ∀ (n : Nat) (pw : Bool) (s : Str), s.length ≤ n →
    NoVerb pw (stripAux 0 pw s)
  | 0, pw, s, hs => by
    have h0 : s = [] := List.eq_nil_of_length_eq_zero (Nat.le_zero.mp hs)
    subst h0
    rw [stripAux_nil]
    trivial
  | n + 1, pw, s, hs => by
    cases s with
    | nil =>
      rw [stripAux_nil]
      trivial
    | cons c rest =>
      by_cases h : verbHere pw (c :: rest) = true
      · rw [strip_cons, if_pos h]
        cases hd : rest.drop 5 with
        | nil =>
          rw [stripAux_nil]
          trivial
        | cons x d' =>
          have hxw : isWordChar x = false := by
            obtain ⟨_, _, hbdry⟩ := verbHere_elim _ _ h
            rcases hbdry with hle | hw
            · exfalso
              have hr5 : rest.length ≤ 5 := by simpa using hle
              have hnil : rest.drop 5 = [] := List.drop_eq_nil_of_le hr5
              rw [hd] at hnil
              exact List.cons_ne_nil x d' hnil
            · have hx : (c :: rest).getD 6 32 = x := by
                rw [List.getD_cons_succ, ← getD_drop, hd, List.getD_cons_zero]
              rw [hx] at hw
              exact hw
          have hunf : stripAux 0 true (x :: d') = x :: stripAux 0 (isWordChar x) d' := by
            rw [strip_cons, if_neg (by simp [verbHere])]
          rw [hunf]
          have hd'len : d'.length ≤ n := by
            have hld := congrArg List.length hd
            rw [List.length_drop] at hld
            simp only [List.length_cons] at hld hs
            omega
          exact ⟨verbHere_head_nonword pw x _ hxw, noVerb_stripAux n (isWordChar x) d' hd'len⟩
      · rw [strip_cons, if_neg (by simp [h])]
        have hrl : rest.length ≤ n := by
          simp only [List.length_cons] at hs
          omega
        exact ⟨verbHere_stripped pw c rest (Bool.not_eq_true _ ▸ h),
               noVerb_stripAux n (isWordChar c) rest hrl⟩

theorem isWS_not_word (c : Nat) (h : isWS c = true) : isWordChar c = false := by
  simp only [isWS, Bool.or_eq_true, beq_iff_eq] at h
  rcases h with ((h | h) | h) | h <;> subst h <;> rfl

theorem noVerb_trimL : ∀ (s : Str) (pw : Bool), NoVerb pw s → NoVerb pw (trimL s)
  | [], _, _ => trivial
  | c :: rest, pw, h => by
    rw [trimL, List.dropWhile_cons]
    by_cases hc : isWS c = true
    · rw [if_pos hc]
      have h2 : NoVerb false rest := isWS_not_word c hc ▸ h.2
      exact noVerb_mono _ (noVerb_trimL rest false h2) pw
    · rw [if_neg hc]
      exact h

theorem noVerb_append_ws : ∀ (a w : Str) (pw : Bool), NoVerb pw (a ++ w) →
    (∀ x ∈ w, isWS x = true) → NoVerb pw a
  | [], _, _, _, _ => trivial
  | c :: a', w, pw, h, hws => by
    refine ⟨?_, noVerb_append_ws a' w (isWordChar c) h.2 hws⟩
    by_contra hcon
    rw [Bool.not_eq_false] at hcon
    obtain ⟨hpw, hverb, hbdry⟩ := verbHere_elim _ _ hcon
    have hlen := verbHere_len _ _ hcon
    have ha5 : 5 ≤ a'.length := by
      simp only [List.length_cons] at hlen
      omega
    have htake : (c :: (a' ++ w)).take 6 = (c :: a').take 6 := by
      rw [List.take_succ_cons, List.take_succ_cons, List.take_append_eq_append_take,
        show 5 - a'.length = 0 from by omega]
      simp
    have hbd2 : (c :: (a' ++ w)).length ≤ 6 ∨
        isWordChar ((c :: (a' ++ w)).getD 6 32) = false := by
      rcases Nat.lt_or_ge a'.length 6 with h6 | h6
      · have ha'5 : a'.length = 5 := by omega
        cases hwcase : w with
        | nil =>
          left
          simp [ha'5]
        | cons y w' =>
          right
          have hyws := hws y (by rw [hwcase]; exact List.mem_cons_self y w')
          have hgd : (c :: (a' ++ (y :: w'))).getD 6 32 = y := by
            rw [List.getD_cons_succ,
              List.getD_append_right _ _ _ _ (by omega),
              show 5 - a'.length = 0 from by omega, List.getD_cons_zero]
          rw [hgd]
          exact isWS_not_word y hyws
      · right
        have hgd : (c :: (a' ++ w)).getD 6 32 = (c :: a').getD 6 32 := by
          rw [List.getD_cons_succ, List.getD_cons_succ, List.getD_append _ _ _ _ (by omega)]
        rcases hbdry with hle | hwd
        · exfalso
          simp only [List.length_cons] at hle
          omega
        · rw [hgd]
          exact hwd
    have hcontra : verbHere pw (c :: (a' ++ w)) = true := by
      simp only [verbHere, Bool.and_eq_true, Bool.or_eq_true, Bool.not_eq_true',
        decide_eq_true_eq]
      refine ⟨⟨hpw, by rw [htake]; exact hverb⟩, ?_⟩
      rcases hbd2 with hl | hr
      · exact Or.inl hl
      · exact Or.inr hr
    have h1 : verbHere pw (c :: (a' ++ w)) = false := h.1
    rw [h1] at hcontra
    exact Bool.false_ne_true hcontra

theorem noVerb_trim (s : Str) (pw : Bool) (h : NoVerb pw s) : NoVerb pw (trim s) := by
  have h1 := noVerb_trimL s pw h
  obtain ⟨w, hw, hws⟩ := trimR_decomp (trimL s)
  rw [hw] at h1
  exact noVerb_append_ws (trimR (trimL s)) w pw h1 hws

theorem extractSearchTitle_def (u : Str) (ps : List ParsedResult) :
    extractSearchTitle u ps = trim (stripVerbs
      (if ps.isEmpty then lowerN u
       else ps.foldl (fun st date => trim (replaceFirst st date.text)) (lowerN u))) := rfl

/-- C7 amended: extractSearchTitle is idempotent on every utterance and
expression sequence for which no expression matched text occurs as a
substring of the result of the first application (feeding the output back
in with the same expression sequence returns it unchanged). -/
theorem extractSearchTitle_idem (u : Str) (ps : List ParsedResult)
    (H : ∀ p ∈ ps, isSubstrOf p.text (extractSearchTitle u ps) = false) :
    extractSearchTitle (extractSearchTitle u ps) ps = extractSearchTitle u ps := by
  set r := extractSearchTitle u ps with hr
  have hlow : lowerN r = r := lowerN_eq_self r (extractSearchTitle_lowered u ps)
  have htrim : trim r = r := by
    rw [hr, extractSearchTitle_def]
    exact trim_trim _
  have hnv : NoVerb false r := by
    rw [hr, extractSearchTitle_def]
    exact noVerb_trim _ false (noVerb_stripAux _ false _ le_rfl)
  have hstrip : stripVerbs r = r := stripAux_eq_self r false hnv
  have hfold : (if ps.isEmpty then r
      else ps.foldl (fun st date => trim (replaceFirst st date.text)) r) = r := by
    split
    · rfl
    · exact foldl_fixed ps r H htrim
  rw [extractSearchTitle_def, hlow, hfold, hstrip, htrim]

theorem extractSearchTitle_idem_witness :
    isSubstrOf (strCodes ("tomorrow"))
      (extractSearchTitle (strCodes ("cancel dentist appointment tomorrow"))
        [⟨strCodes ("tomorrow"), 0, none⟩]) = false ∧
    extractSearchTitle
        (extractSearchTitle (strCodes ("cancel dentist appointment tomorrow"))
          [⟨strCodes ("tomorrow"), 0, none⟩])
        [⟨strCodes ("tomorrow"), 0, none⟩]
      = extractSearchTitle (strCodes ("cancel dentist appointment tomorrow"))
          [⟨strCodes ("tomorrow"), 0, none⟩] :=
  ⟨by decide,
   extractSearchTitle_idem (strCodes ("cancel dentist appointment tomorrow"))
     [⟨strCodes ("tomorrow"), 0, none⟩] (by decide)⟩

end SiriGoogle
